import Mathlib

/-!
# Echomindr — verification of the natural-language specification

Shallow embedding of the core logic of the Echomindr repository
(`echomindr_api.py`, `echomindr_build_db.py`, `echomindr_mcp.py`) in Lean 4,
with theorems settling the frozen claims C1..C10.

Strings from the Python source are modelled as `List Char`; Python `None`
becomes `Option`; the SQLite store is modelled as a list of rows scanned in
rowid order; the external full-text engine and the external JSON
(de)serialisation are abstracted as function parameters.  Lowercasing models
Python `str.lower` on ASCII letters (the stopword set and all claim inputs are
ASCII).
-/

deriving instance DecidableEq for Except

/-- The apostrophe character (written via its code point). -/
def apos : Char := Char.ofNat 39

/-- ASCII uppercase-to-lowercase pairs, modelling `str.lower` for the ASCII
range used by the code. -/
def upperMap : List (Char × Char) :=
  [('A', 'a'), ('B', 'b'), ('C', 'c'), ('D', 'd'), ('E', 'e'), ('F', 'f'),
   ('G', 'g'), ('H', 'h'), ('I', 'i'), ('J', 'j'), ('K', 'k'), ('L', 'l'),
   ('M', 'm'), ('N', 'n'), ('O', 'o'), ('P', 'p'), ('Q', 'q'), ('R', 'r'),
   ('S', 's'), ('T', 't'), ('U', 'u'), ('V', 'v'), ('W', 'w'), ('X', 'x'),
   ('Y', 'y'), ('Z', 'z')]

/-- Python `str.lower` on one character (ASCII). -/
def pyLower (c : Char) : Char :=
  match upperMap.find? (fun p => decide (p.1 = c)) with
  | some p => p.2
  | none => c

/-- Character class of the regex in `extract_keywords`. -/
def wordChar (c : Char) : Bool :=
  (decide ('a' ≤ c) && decide (c ≤ 'z')) ||
  (decide ('A' ≤ c) && decide (c ≤ 'Z')) ||
  decide (c = apos)

/-- Accumulator pass splitting a character list into maximal runs of
characters satisfying `p` (the semantics of `re.findall` over a single
character class, before the length bound). -/
def runsAux (p : Char → Bool) (cur : List Char) : List Char → List (List Char)
  | [] => if cur = [] then [] else [cur.reverse]
  | c :: cs =>
    if p c then runsAux p (c :: cur) cs
    else if cur = [] then runsAux p [] cs
    else cur.reverse :: runsAux p [] cs

/-- All maximal runs of `p`-characters in `text`. -/
def listRuns (p : Char → Bool) (text : List Char) : List (List Char) :=
  runsAux p [] text

/-- `re.findall` of the pattern `[a-zA-Z']{3,}`: maximal word-character runs
of length at least 3. -/
def findall3 (text : List Char) : List (List Char) :=
  (listRuns wordChar text).filter (fun w => decide (3 ≤ w.length))

/-- Python `w.strip` with the apostrophe as its argument: drop leading and
trailing apostrophes. -/
def stripQuotes (w : List Char) : List Char :=
  ((w.dropWhile (fun c => decide (c = apos))).reverse.dropWhile
      (fun c => decide (c = apos))).reverse

/-- The `STOPWORDS` set of `echomindr_api.py` (a Python set literal; list
membership has the same semantics). -/
def STOPWORDS : List String :=
  ["i", "im", "my", "me", "we", "our", "a", "an", "the", "is", "are",
   "was", "were", "be", "been", "being", "have", "has", "had", "do",
   "does", "did", "will", "would", "could", "should", "may", "might",
   "shall", "can", "need", "dare", "ought", "used", "to", "of", "in",
   "for", "on", "with", "at", "by", "from", "as", "into", "through",
   "during", "before", "after", "above", "below", "between", "out",
   "off", "over", "under", "again", "further", "then", "once", "here",
   "there", "when", "where", "why", "how", "all", "both", "each",
   "few", "more", "most", "other", "some", "such", "no", "nor", "not",
   "only", "own", "same", "so", "than", "too", "very", "just", "don",
   "dont", "t", "s", "and", "but", "or", "if", "about", "it", "its",
   "that", "this", "what", "which", "who", "whom", "these", "those",
   "am", "been", "having", "doing", "because", "until", "while",
   "up", "down", "whether", "considering", "sure", "really", "think",
   "know", "like", "want", "get", "got", "going", "after"]

/-- The keyword list of `extract_keywords` before deduplication: the list
comprehension `[w.strip(...) for w in words if w not in STOPWORDS and
len(w) >= 3]` applied to `re.findall(..., text.lower())`. -/
def preKeywords (text : List Char) : List (List Char) :=
  ((findall3 (text.map pyLower)).filter
      (fun w => decide (¬ String.mk w ∈ STOPWORDS) && decide (3 ≤ w.length))).map
    stripQuotes

/-- The dedup-preserving-order loop of `extract_keywords` (`seen` set plus
`unique` output list). -/
def dedupAux {α : Type} [DecidableEq α] (seen : List α) : List α → List α
  | [] => []
  | x :: xs => if x ∈ seen then dedupAux seen xs else x :: dedupAux (x :: seen) xs

/-- `extract_keywords` from `echomindr_api.py`. -/
def extract_keywords (text : List Char) : List (List Char) :=
  dedupAux [] (preKeywords text)

/-- Python `" ".join`. -/
def joinSpace : List (List Char) → List Char
  | [] => []
  | [t] => t
  | t :: ts => t ++ ' ' :: joinSpace ts

/-- Index of the first occurrence of `x` in `l` (length of `l` if absent);
used to state "first-occurrence order". -/
def firstIdx {α : Type} [DecidableEq α] (l : List α) (x : α) : Nat :=
  match l with
  | [] => 0
  | y :: ys => if y = x then 0 else firstIdx ys x + 1

/-! ## Timestamp parsing and URL derivation (`echomindr_build_db.py`) -/

/-- ASCII whitespace recognised by Python `str.strip`. -/
def wsChar (c : Char) : Bool :=
  decide (c = ' ') || decide (c = Char.ofNat 9) || decide (c = Char.ofNat 10) ||
  decide (c = Char.ofNat 13) || decide (c = Char.ofNat 11) || decide (c = Char.ofNat 12)

/-- Python `str.strip()` (ASCII whitespace). -/
def pyStrip (l : List Char) : List Char :=
  ((l.dropWhile wsChar).reverse.dropWhile wsChar).reverse

/-- Digit test for `int(...)`. -/
def isDigitCh (c : Char) : Bool := decide ('0' ≤ c) && decide (c ≤ '9')

/-- Numeric value of a digit list (most significant first). -/
def natOfDigits (l : List Char) : Nat :=
  l.foldl (fun a c => a * 10 + (c.toNat - 48)) 0

/-- Python `int(str)`: surrounding whitespace allowed, optional sign, at
least one digit. -/
def pyInt (s : List Char) : Option Int :=
  match pyStrip s with
  | [] => none
  | c :: rest =>
    if c = '-' then
      if rest ≠ [] ∧ rest.all isDigitCh then some (-(natOfDigits rest : Int)) else none
    else if c = '+' then
      if rest ≠ [] ∧ rest.all isDigitCh then some (natOfDigits rest : Int) else none
    else if (c :: rest).all isDigitCh then some (natOfDigits (c :: rest) : Int) else none

/-- Python `str.split` on a colon. -/
def splitColonAux (cur : List Char) : List Char → List (List Char)
  | [] => [cur.reverse]
  | c :: cs => if c = ':' then cur.reverse :: splitColonAux [] cs
               else splitColonAux (c :: cur) cs

/-- `ts.split(":")`. -/
def splitColon (l : List Char) : List (List Char) := splitColonAux [] l

/-- `parse_timestamp_to_seconds` from `echomindr_build_db.py`. -/
def parse_timestamp_to_seconds (ts : List Char) : Option Int :=
  if ts = [] then none
  else
    match (splitColon (pyStrip ts)).mapM pyInt with
    | none => none
    | some [m, s] => some (m * 60 + s)
    | some [h, m, s] => some (h * 3600 + m * 60 + s)
    | some _ => none

/-- The watch-URL pattern tested by `build_url_at_moment`. -/
def watchPre : List Char := "https://www.youtube.com/watch?v=".toList

/-- `build_url_at_moment` from `echomindr_build_db.py`. -/
def build_url_at_moment (base : List Char) (ts : List Char) : Option (List Char) :=
  if base = [] ∨ ¬ (watchPre.isPrefixOf base) then none
  else
    match parse_timestamp_to_seconds ts with
    | none => some base
    | some secs =>
      let sep : Char := if base.contains '?' then '&' else '?'
      some (base ++ sep :: 't' :: '=' :: (toString secs).toList ++ ['s'])

/-! ## Ingestion normalisation (`resolve_source`, `echomindr_build_db.py`) -/

/-- The `source` dict embedded in a raw moment (missing keys are `none`). -/
structure SrcJson where
  podcast : Option String := none
  episode : Option String := none
  guest : Option String := none
  date : Option String := none
  url : Option String := none
deriving DecidableEq

/-- A `meta.json` record (missing keys are `none`; a missing file is the
record with every field `none`). -/
structure MetaJson where
  podcast : Option String := none
  episode : Option String := none
  guest : Option String := none
  date : Option String := none
  url : Option String := none
deriving DecidableEq

/-- The merged source dict returned by `resolve_source`. -/
structure ResolvedSource where
  podcast : String
  episode : String
  guest : String
  date : String
  url : String
deriving DecidableEq

/-- Python `a or b` where `a` is `dict.get(key)` (absent or empty string is
falsy) and `b` is already a string. -/
def pyOr (a : Option String) (b : String) : String :=
  match a with
  | some s => if s = "" then b else s
  | none => b

/-- Python `dict.get(key, "")`. -/
def pyGetD (a : Option String) : String := a.getD ""

/-- Python `needle in hay` on strings (substring test). -/
def containsSub (needle hay : List Char) : Bool :=
  hay.tails.any (fun t => needle.isPrefixOf t)

/-- The literal placeholder marker rejected by the guest merge. -/
def containsTODO (s : String) : Bool := containsSub "TODO".toList s.toList

/-- The unresolved-search placeholder pattern rejected by the URL merge. -/
def ytSearchMark : String := "ytsearch1:"

/-- Python `str.startswith`. -/
def strStarts (p s : String) : Bool := p.toList.isPrefixOf s.toList

/-- `resolve_source(moment, meta)` from `echomindr_build_db.py`.  The first
argument is `moment.get("source") or {}` (already projected to its fields). -/
def resolve_source (src : SrcJson) (meta : MetaJson) : ResolvedSource :=
  let url0 := pyOr meta.url (pyGetD src.url)
  let url := if strStarts ytSearchMark url0 then "" else url0
  let guest0 := pyOr meta.guest (pyGetD src.guest)
  let guest1 := if containsTODO guest0 then pyGetD src.guest else guest0
  let guest2 := if containsTODO guest1 then "" else guest1
  { podcast := pyOr meta.podcast (pyGetD src.podcast)
    episode := pyOr meta.episode (pyGetD src.episode)
    guest := guest2
    date := pyOr meta.date (pyGetD src.date)
    url := url }

/-! ## Stored rows and ingestion loops

A stored `moments` row, restricted to the columns the verified claims read
(`id`, `type`, `timestamp`, `stage`, `tags`, `podcast`, `source_url`,
`url_at_moment`); the remaining narrative text columns play no role in any
claim.  `tags` holds the serialised JSON text (`NULL` is `none`). -/
structure Row where
  id : String
  type : Option String := none
  timestamp : Option String := none
  stage : Option String := none
  tags : Option String := none
  podcast : Option String := none
  source_url : Option String := none
  url_at_moment : Option String := none
deriving DecidableEq

/-- A raw moment as read from a `moments.json` / `sample_moments.json` file,
restricted to the fields the embedded ingestion code reads.  `stage` stands
for `context.get("stage")` in the episode files and for `m.get("stage")` in
the sample file. -/
structure RawMoment where
  id : Option String := none
  type : Option String := none
  timestamp : Option String := none
  stage : Option String := none
  tags : List String := []
  source : SrcJson := {}
deriving DecidableEq

/-- One iteration of the per-moment loop of `build_db`: `dumps` models
`json.dumps`, `gen i` models the `i`-th draw of `str(uuid.uuid4())`. -/
def buildDbRow (dumps : List String → String) (gen : Nat → String)
    (meta : MetaJson) (i : Nat) (m : RawMoment) : Row :=
  let src := resolve_source m.source meta
  let ts := m.timestamp.getD ""
  { id := gen i
    type := some (m.type.getD "unknown")
    timestamp := some ts
    stage := m.stage
    tags := some (dumps m.tags)
    podcast := some src.podcast
    source_url := some src.url
    url_at_moment := (build_url_at_moment src.url.toList ts.toList).map String.mk }

/-- The per-moment loop of `build_db` over one episode, starting at the
`i`-th identifier draw. -/
def buildDbRows (dumps : List String → String) (gen : Nat → String)
    (meta : MetaJson) : Nat → List RawMoment → List Row
  | _, [] => []
  | i, m :: ms => buildDbRow dumps gen meta i m :: buildDbRows dumps gen meta (i + 1) ms

/-- One iteration of the per-moment loop of `build_sample_db`
(`moment_id = m.get("id") or str(uuid.uuid4())`). -/
def buildSampleRow (dumps : List String → String) (gen : Nat → String)
    (i : Nat) (m : RawMoment) : Row :=
  let src := m.source
  let ts := m.timestamp.getD ""
  { id := pyOr m.id (gen i)
    type := some (m.type.getD "unknown")
    timestamp := some ts
    stage := m.stage
    tags := some (dumps m.tags)
    podcast := src.podcast
    source_url := src.url
    url_at_moment := (build_url_at_moment (pyGetD src.url).toList ts.toList).map String.mk }

/-- The per-moment loop of `build_sample_db`. -/
def buildSampleRows (dumps : List String → String) (gen : Nat → String) :
    Nat → List RawMoment → List Row
  | _, [] => []
  | i, m :: ms => buildSampleRow dumps gen i m :: buildSampleRows dumps gen (i + 1) ms

/-! ## API error taxonomy and row lookup (`echomindr_api.py`) -/

/-- HTTP-level outcomes of the handlers: 404, 400, 422 (FastAPI or pydantic
constraint violation), and an uncaught exception (500). -/
inductive ApiErr
  | notFound
  | badRequest
  | validation
  | internal
deriving DecidableEq

/-- `SELECT * FROM moments WHERE id = ?` on the list model of the store
(`id` is the primary key, so the first hit is the row). -/
def findRow (db : List Row) (mid : String) : Option Row :=
  db.find? (fun r => decide (r.id = mid))

/-- `GET /moments/{moment_id}` (`get_moment`), reduced to its store
interaction: 404 on a miss, the row otherwise. -/
def get_moment (db : List Row) (mid : String) : Except ApiErr Row :=
  match findRow db mid with
  | none => .error .notFound
  | some r => .ok r

/-! ## Similarity scorer (`similar`, `echomindr_api.py`) -/

/-- `len(set(source_tags) & set(c_tags))`. -/
def sharedCount (srcTags tl : List String) : Nat :=
  ((tl.dedup).filter (fun t => decide (t ∈ srcTags))).length

/-- One element of the `scored` list: `(shared, same_stage, c)`. -/
structure Scored where
  shared : Nat
  sameStage : Nat
  row : Row
deriving DecidableEq

/-- The sort key `(x[0], x[1])`. -/
def scoredKey (e : Scored) : Nat × Nat := (e.shared, e.sameStage)

/-- The candidate-scoring loop of `similar`: parse the candidate tags with
the abstract JSON parser `pt` (`none` models any exception caught by the
`except` clause, including a `NULL` column), keep candidates with positive
overlap. -/
def scoredOf (pt : String → Option (List String)) (srcTags : List String)
    (srcStage : Option String) : List Row → List Scored
  | [] => []
  | c :: cs =>
    match c.tags with
    | none => scoredOf pt srcTags srcStage cs
    | some raw =>
      match pt raw with
      | none => scoredOf pt srcTags srcStage cs
      | some tl =>
        let sh := sharedCount srcTags tl
        if 0 < sh then
          ⟨sh, if c.stage = srcStage then 1 else 0, c⟩ :: scoredOf pt srcTags srcStage cs
        else scoredOf pt srcTags srcStage cs

/-- Strict lexicographic order on sort keys. -/
def lexLt (a b : Nat × Nat) : Prop := a.1 < b.1 ∨ (a.1 = b.1 ∧ a.2 < b.2)

instance instLexLtDec (a b : Nat × Nat) : Decidable (lexLt a b) := by
  unfold lexLt; exact inferInstance

/-- Stable insertion step for descending key order: the new element goes
before the first list element whose key is not strictly greater. -/
def insertDesc {α : Type} (key : α → Nat × Nat) (x : α) : List α → List α
  | [] => [x]
  | y :: ys => if lexLt (key x) (key y) then y :: insertDesc key x ys
               else x :: y :: ys

/-- Stable sort, descending by key: the extensional behaviour of Python
`list.sort(key=..., reverse=True)`. -/
def sortDesc {α : Type} (key : α → Nat × Nat) : List α → List α
  | [] => []
  | x :: xs => insertDesc key x (sortDesc key xs)

/-- `SELECT * FROM moments WHERE id != ? AND tags IS NOT NULL AND
tags != '[]'` on the list model. -/
def candidatesOf (db : List Row) (mid : String) : List Row :=
  db.filter (fun c =>
    decide (c.id ≠ mid) && decide (c.tags ≠ none) && decide (c.tags ≠ some "[]"))

/-- The `SimilarResponse` payload (rows in place of formatted moments;
`format_moment` is a field-for-field projection). -/
structure SimilarRes where
  source_id : String
  source_tags : List String
  count : Nat
  moments : List Row
deriving DecidableEq

/-- `GET /similar/{moment_id}` (`similar`): FastAPI validates
`limit ∈ [1, 20]`, the source row is loaded (404 on a miss), a falsy tags
column yields the empty response, an unparseable source tags column is an
uncaught exception (500), and otherwise candidates are scored, stably sorted
descending on `(shared, same_stage)` and truncated to the limit. -/
def similar (pt : String → Option (List String)) (db : List Row)
    (mid : String) (lim : Int) : Except ApiErr SimilarRes :=
  if ¬ (1 ≤ lim ∧ lim ≤ 20) then .error .validation
  else
    match findRow db mid with
    | none => .error .notFound
    | some source =>
      if source.tags = none ∨ source.tags = some "" then
        .ok { source_id := mid, source_tags := [], count := 0, moments := [] }
      else
        match pt ((source.tags).getD "") with
        | none => .error .internal
        | some srcTags =>
          if srcTags = [] then
            .ok { source_id := mid, source_tags := [], count := 0, moments := [] }
          else
            let scored := scoredOf pt srcTags source.stage (candidatesOf db mid)
            let top := ((sortDesc scoredKey scored).take lim.toNat).map (fun e => e.row)
            .ok { source_id := mid, source_tags := srcTags,
                  count := top.length, moments := top }

/-! ## Query engine (`search` and `situation_match`, `echomindr_api.py`) -/

/-- Python truthiness of an optional query filter (`if stage:` — absent and
empty string both disable the filter). -/
def activeF (o : Option String) : Option String :=
  match o with
  | some v => if v = "" then none else some v
  | none => none

/-- ASCII lowering of a string (for the case-insensitive `LIKE`). -/
def lowerS (s : String) : String := String.mk (s.toList.map pyLower)

/-- SQLite `column LIKE '%pat%'` (ASCII case-insensitive substring). -/
def sqlLikeContains (pat s : String) : Bool :=
  containsSub (lowerS pat).toList (lowerS s).toList

/-- The composed `WHERE` filters of `search` (stage and type equality, the
podcast substring match); a `NULL` column never matches. -/
def rowKeep (stage ty podcast : Option String) (r : Row) : Bool :=
  (match stage with
   | none => true
   | some v => decide (r.stage = some v)) &&
  (match ty with
   | none => true
   | some v => decide (r.type = some v)) &&
  (match podcast with
   | none => true
   | some v =>
     match r.podcast with
     | none => false
     | some p => sqlLikeContains v p)

/-- Stable insertion step for ascending key order. -/
def insertAsc {α : Type} (key : α → Nat) (x : α) : List α → List α
  | [] => [x]
  | y :: ys => if key y < key x then y :: insertAsc key x ys
               else x :: y :: ys

/-- Stable ascending sort, modelling `ORDER BY f.rank` of the store. -/
def sortAsc {α : Type} (key : α → Nat) : List α → List α
  | [] => []
  | x :: xs => insertAsc key x (sortAsc key xs)

/-- The store-read collaborator: `matchRank` abstracts the full-text `MATCH`
(`none` = no match, `some k` = matched with rank `k`, smaller is better);
the query filters rows, orders them by rank and applies `LIMIT`. -/
def sqlQuery (matchRank : Row → Option Nat) (keep : Row → Bool)
    (db : List Row) (lim : Nat) : List Row :=
  let matched := db.filterMap (fun r => (matchRank r).map (fun k => (k, r)))
  let kept := matched.filter (fun p => keep p.2)
  ((sortAsc (fun p => p.1) kept).map (fun p => p.2)).take lim

/-- The `SearchResponse` payload (filters echo omitted). -/
structure SearchRes where
  query : String
  count : Nat
  moments : List Row
deriving DecidableEq

/-- `GET /search` (`search`): FastAPI validates `limit ∈ [1, 20]` (422
outside), an empty/whitespace query is a 400, otherwise one store query with
the composed filters and the limit. -/
def search (matchRank : Row → Option Nat) (db : List Row) (q : String)
    (stage ty podcast : Option String) (lim : Int) : Except ApiErr SearchRes :=
  if ¬ (1 ≤ lim ∧ lim ≤ 20) then .error .validation
  else if String.mk (pyStrip q.toList) = "" then .error .badRequest
  else
    let rows := sqlQuery matchRank (rowKeep (activeF stage) (activeF ty) (activeF podcast))
        db lim.toNat
    .ok { query := q, count := rows.length, moments := rows }

/-- The `SituationResponse` payload. -/
structure SituationRes where
  situation : String
  query_keywords : List String
  stage_filter : Option String
  count : Nat
  moments : List Row
deriving DecidableEq

/-- `POST /situation` (`situation_match`): pydantic validates
`limit ∈ [1, 20]` (422 outside, before the handler runs), an empty situation
is a 400, the handler then clamps the already-validated limit, extracts
keywords (400 when none), and runs one store query whose match expression is
the OR of the keywords (abstracted by `matchRank`). -/
def situation_match (matchRank : List String → Row → Option Nat) (db : List Row)
    (sit : String) (stage : Option String) (lim : Int) : Except ApiErr SituationRes :=
  if ¬ (1 ≤ lim ∧ lim ≤ 20) then .error .validation
  else if String.mk (pyStrip sit.toList) = "" then .error .badRequest
  else
    let limC := max 1 (min lim 20)
    let kws := (extract_keywords sit.toList).map String.mk
    if kws = [] then .error .badRequest
    else
      let rows := sqlQuery (matchRank kws) (rowKeep (activeF stage) none none) db limC.toNat
      .ok { situation := sit, query_keywords := kws, stage_filter := stage,
            count := rows.length, moments := rows }

/-! ## Agent-tool adapter limit clamps (`echomindr_mcp.py`) -/

/-- `limit = max(1, min(limit, 10))` in `search_experience`. -/
def search_experience_limit (lim : Int) : Int := max 1 (min lim 10)

/-- `limit = max(1, min(limit, 5))` in `find_similar_experiences`. -/
def find_similar_experiences_limit (lim : Int) : Int := max 1 (min lim 5)

/-- Pairing each element with its scan index (used to state stability). -/
def withIdx {α : Type} : List α → Nat → List (α × Nat)
  | [], _ => []
  | x :: xs, n => (x, n) :: withIdx xs (n + 1)

/-! ## Concrete inputs used by the witness theorems -/

/-- A concrete JSON parser instance for witnesses: two valid serialised tag
lists and everything else failing to parse. -/
def ptW : String → Option (List String) := fun s =>
  if s = "TA" then some ["a", "b"]
  else if s = "TB" then some ["a"]
  else none

/-- Witness source row. -/
def rowS : Row := { id := "s", stage := some "mvp", tags := some "TA" }

/-- Witness candidate sharing two tags and the stage. -/
def rowC1 : Row := { id := "c1", stage := some "mvp", tags := some "TA" }

/-- Witness candidate sharing one tag, different stage. -/
def rowC2 : Row := { id := "c2", tags := some "TB" }

/-- Witness candidate whose tags column does not parse. -/
def rowC3 : Row := { id := "c3", tags := some "BAD" }

/-- Witness store. -/
def dbW : List Row := [rowS, rowC1, rowC2, rowC3]

/-- Expected witness similarity response. -/
def resW : SimilarRes :=
  { source_id := "s", source_tags := ["a", "b"], count := 2,
    moments := [rowC1, rowC2] }

/-- Witness raw moment whose file carries an `id` field. -/
def mW : RawMoment := { id := some "abc" }

/-- Witness identifier generator. -/
def genW : Nat → String := fun i => "uuid-" ++ toString i

/-- Witness serialiser. -/
def dumpsW : List String → String := fun _ => "[]"

/-- A witness identifier generator with an easy injectivity proof. -/
def genInj : Nat → String := fun i => String.mk (List.replicate i 'a')

/-- Witness meta record with placeholder values to reject. -/
def metaW : MetaJson := { guest := some "TODO find guest", url := some "ytsearch1:some episode" }

/-- Witness raw source dict. -/
def srcW : SrcJson := { guest := some "Jane Doe", url := some "https://example.com/e1" }

/-! # Theorems -/

/-- `sqlQuery` honours its `LIMIT`. -/
theorem sqlQuery_length_le (mr : Row → Option Nat) (keep : Row → Bool)
    (db : List Row) (lim : Nat) : (sqlQuery mr keep db lim).length ≤ lim := by
  simp only [sqlQuery, List.length_take]
  omega

/-- C3: timestamp parsing maps 3:26 to 206 and 1:23:45 to 5025 seconds; a
watch URL with timestamp 1:02:03 gains the suffix made of the separator and
t=3723s; an unparseable timestamp leaves a watch URL unchanged; a URL not
matching the watch pattern produces no timestamped variant. -/
theorem c3_timestamp_and_url :
    parse_timestamp_to_seconds "3:26".toList = some 206
    ∧ parse_timestamp_to_seconds "1:23:45".toList = some 5025
    ∧ build_url_at_moment "https://www.youtube.com/watch?v=XYZ".toList "1:02:03".toList
        = some "https://www.youtube.com/watch?v=XYZ&t=3723s".toList
    ∧ (∀ base ts, watchPre.isPrefixOf base = true → parse_timestamp_to_seconds ts = none →
        build_url_at_moment base ts = some base)
    ∧ (∀ base ts, watchPre.isPrefixOf base = false → build_url_at_moment base ts = none) := by
  refine ⟨by decide, by decide, by decide, ?_, ?_⟩
  · intro base ts hp hn
    have hb : base ≠ [] := by
      intro h; subst h; revert hp; decide
    have hcond : ¬ (base = [] ∨ ¬ (watchPre.isPrefixOf base = true)) := by
      push_neg; exact ⟨hb, hp⟩
    simp only [build_url_at_moment]
    rw [if_neg, hn]
    simpa using hcond
  · intro base ts hp
    simp only [build_url_at_moment]
    rw [if_pos]
    simp [hp]

/-- Witness for C3 at concrete inputs. -/
theorem c3_witness :
    build_url_at_moment "https://www.youtube.com/watch?v=A".toList "oops".toList
        = some "https://www.youtube.com/watch?v=A".toList
    ∧ build_url_at_moment "https://example.com/x".toList "3:26".toList = none := by
  exact ⟨c3_timestamp_and_url.2.2.2.1 _ _ (by decide) (by decide),
    c3_timestamp_and_url.2.2.2.2 _ _ (by decide)⟩

/-- C4 counterexample: on the situation-match path an out-of-range limit is
not clamped into 1..20 — the request is rejected by validation before the
handler clamp can run. -/
theorem c4_counterexample :
    situation_match (fun _ _ => none) [] "pricing strategy" none 21
      = .error .validation := by decide

/-- C4 (amended): both the direct keyword-search path and the
situation-match path reject an out-of-range limit as a validation error with
bounds 1..20 (the situation handler's internal clamp is unreachable for
out-of-range values); the agent-tool adapter's search tool clamps its limit
into 1..10 and its similar tool into 1..5. -/
theorem c4_limits :
    (∀ (lim : Int), (lim < 1 ∨ 20 < lim) → ∀ mr db q st ty pc,
        search mr db q st ty pc lim = .error .validation)
    ∧ (∀ (lim : Int), (lim < 1 ∨ 20 < lim) → ∀ mr db sit st,
        situation_match mr db sit st lim = .error .validation)
    ∧ (∀ lim : Int, 1 ≤ search_experience_limit lim ∧ search_experience_limit lim ≤ 10
        ∧ (1 ≤ lim → lim ≤ 10 → search_experience_limit lim = lim)
        ∧ (10 < lim → search_experience_limit lim = 10)
        ∧ (lim < 1 → search_experience_limit lim = 1))
    ∧ (∀ lim : Int, 1 ≤ find_similar_experiences_limit lim
        ∧ find_similar_experiences_limit lim ≤ 5
        ∧ (1 ≤ lim → lim ≤ 5 → find_similar_experiences_limit lim = lim)) := by
  refine ⟨?_, ?_, ?_, ?_⟩
  · intro lim h mr db q st ty pc
    have hc : ¬ (1 ≤ lim ∧ lim ≤ 20) := by omega
    simp only [search, if_pos hc]
  · intro lim h mr db sit st
    have hc : ¬ (1 ≤ lim ∧ lim ≤ 20) := by omega
    simp only [situation_match, if_pos hc]
  · intro lim
    unfold search_experience_limit
    omega
  · intro lim
    unfold find_similar_experiences_limit
    omega

/-- Witness for C4 at concrete limits. -/
theorem c4_limits_witness :
    search (fun _ => some 0) dbW "q" none none none 21 = .error .validation
    ∧ situation_match (fun _ _ => none) dbW "pricing" none 0 = .error .validation
    ∧ search_experience_limit 99 = 10
    ∧ find_similar_experiences_limit 3 = 3 := by
  refine ⟨c4_limits.1 21 (by omega) _ _ _ _ _ _,
    c4_limits.2.1 0 (by omega) _ _ _ _, ?_, ?_⟩
  · exact (c4_limits.2.2.1 99).2.2.2.1 (by omega)
  · exact (c4_limits.2.2.2 3).2.2 (by omega) (by omega)

/-- C5: the merged source prefers the metadata URL; a chosen URL carrying
the unresolved-search placeholder mark is never accepted and resolves to
empty; the merged guest prefers metadata, a value containing the TODO marker
is rejected in favour of the raw value, and resolves to empty when both are
rejected; the resolved URL and guest never carry their placeholder marks. -/
theorem c5_resolve_source (src : SrcJson) (meta : MetaJson) :
    (strStarts ytSearchMark (pyOr meta.url (pyGetD src.url)) = true →
      (resolve_source src meta).url = "")
    ∧ (strStarts ytSearchMark (pyOr meta.url (pyGetD src.url)) = false →
      (resolve_source src meta).url = pyOr meta.url (pyGetD src.url))
    ∧ (∀ u, meta.url = some u → u ≠ "" → strStarts ytSearchMark u = false →
      (resolve_source src meta).url = u)
    ∧ strStarts ytSearchMark (resolve_source src meta).url = false
    ∧ (containsTODO (pyOr meta.guest (pyGetD src.guest)) = false →
      (resolve_source src meta).guest = pyOr meta.guest (pyGetD src.guest))
    ∧ (containsTODO (pyOr meta.guest (pyGetD src.guest)) = true →
      containsTODO (pyGetD src.guest) = false →
      (resolve_source src meta).guest = pyGetD src.guest)
    ∧ (containsTODO (pyOr meta.guest (pyGetD src.guest)) = true →
      containsTODO (pyGetD src.guest) = true →
      (resolve_source src meta).guest = "")
    ∧ containsTODO (resolve_source src meta).guest = false := by
  refine ⟨?_, ?_, ?_, ?_, ?_, ?_, ?_, ?_⟩
  · intro h; simp [resolve_source, h]
  · intro h; simp [resolve_source, h]
  · intro u hu hne hpre
    simp [resolve_source, pyOr, hu, hne, hpre]
  · by_cases h : strStarts ytSearchMark (pyOr meta.url (pyGetD src.url)) = true
    · simp [resolve_source, h]; decide
    · simp only [Bool.not_eq_true] at h
      simp [resolve_source, h]
  · intro h; simp [resolve_source, h]
  · intro h1 h2; simp [resolve_source, h1, h2]
  · intro h1 h2; simp [resolve_source, h1, h2]
  · by_cases h1 : containsTODO (pyOr meta.guest (pyGetD src.guest)) = true
    · by_cases h2 : containsTODO (pyGetD src.guest) = true
      · simp [resolve_source, h1, h2]; decide
      · simp only [Bool.not_eq_true] at h2
        simp [resolve_source, h1, h2]
    · simp only [Bool.not_eq_true] at h1
      simp [resolve_source, h1]

/-- Witness for C5: concrete metadata with placeholder URL and guest. -/
theorem c5_witness :
    (resolve_source srcW metaW).url = ""
    ∧ (resolve_source srcW metaW).guest = "Jane Doe" := by
  exact ⟨(c5_resolve_source srcW metaW).1 (by decide),
    (c5_resolve_source srcW metaW).2.2.2.2.2.1 (by decide) (by decide)⟩

/-- C7: an identifier absent from the store makes both the single-moment
lookup and the similarity operation fail with the not-found condition. -/
theorem c7_lookup_miss (db : List Row) (mid : String)
    (pt : String → Option (List String)) (lim : Int)
    (habs : ∀ r ∈ db, r.id ≠ mid) :
    get_moment db mid = .error .notFound
    ∧ (1 ≤ lim → lim ≤ 20 → similar pt db mid lim = .error .notFound) := by
  have hf : findRow db mid = none := by
    simp only [findRow, List.find?_eq_none, decide_eq_true_eq]
    exact habs
  constructor
  · simp [get_moment, hf]
  · intro h1 h2
    have hv : (1 ≤ lim ∧ lim ≤ 20) := ⟨h1, h2⟩
    simp [similar, hf, hv]

/-- Witness for C7 at a concrete store and missing identifier. -/
theorem c7_witness :
    get_moment dbW "zz" = .error .notFound
    ∧ similar ptW dbW "zz" 5 = .error .notFound := by
  have h := c7_lookup_miss dbW "zz" ptW 5 (by decide)
  exact ⟨h.1, h.2 (by decide) (by decide)⟩

/-- C10: in every successful search, situation-match and similarity
response, `count` equals the length of the returned moment list and never
exceeds the effective limit of the request. -/
theorem c10_count_invariant :
    (∀ mr db q st ty pc (lim : Int) res, search mr db q st ty pc lim = .ok res →
      res.count = res.moments.length ∧ res.count ≤ lim.toNat)
    ∧ (∀ mr db sit st (lim : Int) res, situation_match mr db sit st lim = .ok res →
      res.count = res.moments.length ∧ res.count ≤ (max 1 (min lim 20)).toNat
        ∧ res.count ≤ lim.toNat)
    ∧ (∀ pt db mid (lim : Int) res, similar pt db mid lim = .ok res →
      res.count = res.moments.length ∧ res.count ≤ lim.toNat) := by
  refine ⟨?_, ?_, ?_⟩
  · intro mr db q st ty pc lim res h
    by_cases hval : 1 ≤ lim ∧ lim ≤ 20
    · unfold search at h
      rw [if_neg (not_not_intro hval)] at h
      by_cases hq : String.mk (pyStrip q.toList) = ""
      · rw [if_pos hq] at h; exact Except.noConfusion h
      · rw [if_neg hq] at h
        simp only [Except.ok.injEq] at h
        subst h
        exact ⟨rfl, sqlQuery_length_le _ _ _ _⟩
    · unfold search at h
      rw [if_pos hval] at h
      exact Except.noConfusion h
  · intro mr db sit st lim res h
    by_cases hval : 1 ≤ lim ∧ lim ≤ 20
    · unfold situation_match at h
      rw [if_neg (not_not_intro hval)] at h
      by_cases hsit : String.mk (pyStrip sit.toList) = ""
      · rw [if_pos hsit] at h; exact Except.noConfusion h
      · rw [if_neg hsit] at h
        by_cases hkw : (extract_keywords sit.toList).map String.mk = []
        · simp only [hkw, if_pos] at h
          exact Except.noConfusion h
        · simp only [if_neg hkw, Except.ok.injEq] at h
          subst h
          refine ⟨rfl, sqlQuery_length_le _ _ _ _, ?_⟩
          have hmm : max 1 (min lim 20) = lim := by omega
          calc (sqlQuery (mr ((extract_keywords sit.toList).map String.mk))
                  (rowKeep (activeF st) none none) db (max 1 (min lim 20)).toNat).length
              ≤ (max 1 (min lim 20)).toNat := sqlQuery_length_le _ _ _ _
            _ = lim.toNat := by rw [hmm]
    · unfold situation_match at h
      rw [if_pos hval] at h
      exact Except.noConfusion h
  · intro pt db mid lim res h
    unfold similar at h
    split at h
    · exact Except.noConfusion h
    · split at h
      · exact Except.noConfusion h
      · split at h
        · simp only [Except.ok.injEq] at h
          subst h
          exact ⟨rfl, Nat.zero_le _⟩
        · split at h
          · exact Except.noConfusion h
          · split at h
            · simp only [Except.ok.injEq] at h
              subst h
              exact ⟨rfl, Nat.zero_le _⟩
            · simp only [Except.ok.injEq] at h
              subst h
              refine ⟨by simp, ?_⟩
              simp only [List.length_map, List.length_take]
              omega

/-- Witness for C10 at a concrete search request. -/
theorem c10_witness :
    search (fun _ => some 0) dbW "pricing" none none none 5
        = .ok { query := "pricing", count := 4, moments := dbW }
    ∧ (4 : Nat) = (dbW : List Row).length ∧ (4 : Nat) ≤ (5 : Int).toNat := by
  have hs : search (fun _ => some 0) dbW "pricing" none none none 5
      = .ok { query := "pricing", count := 4, moments := dbW } := by decide
  have h := (c10_count_invariant.1 (fun _ => some 0) dbW "pricing" none none none 5
    { query := "pricing", count := 4, moments := dbW } hs)
  exact ⟨hs, h.1, h.2⟩

/-- Every identifier produced by the `build_db` loop from position `i` on is
a generator draw at a position at or after `i`. -/
theorem mem_buildDbRows_id (dumps : List String → String) (gen : Nat → String)
    (meta : MetaJson) :
    ∀ (i : Nat) (ms : List RawMoment) (x : String),
      x ∈ (buildDbRows dumps gen meta i ms).map (fun r => r.id) →
      ∃ k, i ≤ k ∧ x = gen k := by
  intro i ms
  induction ms generalizing i with
  | nil => intro x hx; simp [buildDbRows] at hx
  | cons m ms ih =>
    intro x hx
    simp only [buildDbRows, List.map_cons, List.mem_cons] at hx
    rcases hx with h | h
    · exact ⟨i, Nat.le_refl _, by simpa [buildDbRow] using h⟩
    · obtain ⟨k, hk, hx⟩ := ih (i + 1) x h
      exact ⟨k, by omega, hx⟩

/-- The witness generator is injective. -/
theorem genInj_injective : Function.Injective genInj := by
  intro a b h
  have h2 : (List.replicate a 'a').length = (List.replicate b 'a').length := by
    have := congrArg String.data h
    simpa [genInj] using congrArg List.length this
  simpa using h2

/-- C9 counterexample: the sample-build path stores an identifier drawn from
the source file rather than a freshly generated one. -/
theorem c9_counterexample :
    (buildSampleRows dumpsW genW 0 [mW]).map (fun r => r.id) = ["abc"]
    ∧ mW.id = some "abc"
    ∧ genW 0 = "uuid-0"
    ∧ ("abc" : String) ≠ "uuid-0" := by decide

/-- C9 (amended): in the main `build_db` ingestion loop every stored
identifier is an ingestion-time generator draw — independent of every field
of the source file and of the metadata, and pairwise distinct whenever the
generator is collision-free; in the `build_sample_db` path the identifier is
taken from the file's `id` field when that field is non-empty, and is a
fresh draw only otherwise. -/
theorem c9_ingestion_ids :
    (∀ dumps dumps2 gen meta meta2 (i : Nat) (ms ms2 : List RawMoment),
      ms.length = ms2.length →
      (buildDbRows dumps gen meta i ms).map (fun r => r.id)
        = (buildDbRows dumps2 gen meta2 i ms2).map (fun r => r.id))
    ∧ (∀ dumps gen meta (i : Nat) (ms : List RawMoment), Function.Injective gen →
      ((buildDbRows dumps gen meta i ms).map (fun r => r.id)).Nodup)
    ∧ (∀ dumps gen (i : Nat) m, (m.id = none ∨ m.id = some "") →
      (buildSampleRow dumps gen i m).id = gen i)
    ∧ (∀ dumps gen (i : Nat) m s, m.id = some s → s ≠ "" →
      (buildSampleRow dumps gen i m).id = s) := by
  refine ⟨?_, ?_, ?_, ?_⟩
  · intro dumps dumps2 gen meta meta2 i ms
    induction ms generalizing i with
    | nil =>
      intro ms2 hlen
      cases ms2 with
      | nil => rfl
      | cons m2 ms2 => simp at hlen
    | cons m ms ih =>
      intro ms2 hlen
      cases ms2 with
      | nil => simp at hlen
      | cons m2 ms2 =>
        have hh : (buildDbRow dumps gen meta i m).id = gen i := rfl
        have hh2 : (buildDbRow dumps2 gen meta2 i m2).id = gen i := rfl
        simp only [buildDbRows, List.map_cons, hh, hh2]
        exact congrArg _ (ih (i + 1) ms2 (by simpa using hlen))
  · intro dumps gen meta i ms hinj
    induction ms generalizing i with
    | nil => simp [buildDbRows]
    | cons m ms ih =>
      simp only [buildDbRows, List.map_cons]
      refine List.nodup_cons.mpr ⟨?_, ih (i + 1)⟩
      intro hmem
      have hh : (buildDbRow dumps gen meta i m).id = gen i := rfl
      rw [hh] at hmem
      obtain ⟨k, hk, hx⟩ := mem_buildDbRows_id dumps gen meta (i + 1) ms _ hmem
      have : i = k := hinj hx
      omega
  · intro dumps gen i m h
    rcases h with h | h <;> simp [buildSampleRow, pyOr, h]
  · intro dumps gen i m s h hne
    simp [buildSampleRow, pyOr, h, hne]

/-- Witness for C9 at concrete moments and generators. -/
theorem c9_witness :
    (buildDbRows dumpsW genW {} 0 [mW]).map (fun r => r.id)
        = (buildDbRows (fun _ => "x") genW metaW 0 [{}]).map (fun r => r.id)
    ∧ ((buildDbRows dumpsW genInj {} 0 [mW, {}]).map (fun r => r.id)).Nodup
    ∧ (buildSampleRow dumpsW genW 3 {}).id = genW 3
    ∧ (buildSampleRow dumpsW genW 3 mW).id = "abc" := by
  refine ⟨c9_ingestion_ids.1 _ _ _ _ _ 0 _ _ rfl,
    c9_ingestion_ids.2.1 _ _ _ 0 _ genInj_injective,
    c9_ingestion_ids.2.2.1 _ _ 3 _ (Or.inl rfl),
    c9_ingestion_ids.2.2.2 _ _ 3 _ "abc" rfl (by decide)⟩

/-- Membership characterisation of the dedup loop. -/
theorem mem_dedupAux {α : Type} [DecidableEq α] (l : List α) :
    ∀ (seen : List α) (x : α), x ∈ dedupAux seen l ↔ x ∈ l ∧ x ∉ seen := by
  induction l with
  | nil => intro seen x; simp [dedupAux]
  | cons y ys ih =>
    intro seen x
    simp only [dedupAux]
    split
    · next hy =>
      rw [ih]
      simp only [List.mem_cons]
      constructor
      · rintro ⟨h1, h2⟩; exact ⟨Or.inr h1, h2⟩
      · rintro ⟨h1, h2⟩
        rcases h1 with rfl | h1
        · exact absurd hy h2
        · exact ⟨h1, h2⟩
    · next hy =>
      simp only [List.mem_cons, ih]
      constructor
      · rintro (rfl | ⟨h1, h2⟩)
        · exact ⟨Or.inl rfl, hy⟩
        · simp only [List.mem_cons, not_or] at h2
          exact ⟨Or.inr h1, h2.2⟩
      · rintro ⟨rfl | h1, h2⟩
        · exact Or.inl rfl
        · by_cases hxy : x = y
          · exact Or.inl hxy
          · exact Or.inr ⟨h1, by simp [List.mem_cons, hxy, h2]⟩

/-- The dedup loop returns a duplicate-free list. -/
theorem nodup_dedupAux {α : Type} [DecidableEq α] (l : List α) :
    ∀ seen : List α, (dedupAux seen l).Nodup := by
  induction l with
  | nil => intro seen; simp [dedupAux]
  | cons y ys ih =>
    intro seen
    simp only [dedupAux]
    split
    · exact ih seen
    · refine List.nodup_cons.mpr ⟨?_, ih (y :: seen)⟩
      rw [mem_dedupAux]
      simp

/-- The dedup loop emits elements ordered by first occurrence in its input. -/
theorem pairwise_firstIdx_dedupAux {α : Type} [DecidableEq α] (l : List α) :
    ∀ seen : List α,
      (dedupAux seen l).Pairwise (fun a b => firstIdx l a < firstIdx l b) := by
  induction l with
  | nil => intro seen; simp [dedupAux]
  | cons y ys ih =>
    intro seen
    simp only [dedupAux]
    split
    · next hy =>
      refine List.Pairwise.imp_of_mem ?_ (ih seen)
      intro a b ha hb hab
      have ha2 := ((mem_dedupAux ys seen a).1 ha).2
      have hb2 := ((mem_dedupAux ys seen b).1 hb).2
      have hay : ¬ (y = a) := fun h => ha2 (h ▸ hy)
      have hby : ¬ (y = b) := fun h => hb2 (h ▸ hy)
      simp only [firstIdx, if_neg hay, if_neg hby]
      omega
    · next hy =>
      refine List.Pairwise.cons ?_ ?_
      · intro b hb
        have hb2 := ((mem_dedupAux ys (y :: seen) b).1 hb).2
        have hby : ¬ (y = b) := fun h => hb2 (h ▸ List.mem_cons_self y seen)
        simp only [firstIdx, if_neg hby, eq_self_iff_true, if_true]
        omega
      · refine List.Pairwise.imp_of_mem ?_ (ih (y :: seen))
        intro a b ha hb hab
        have ha2 := ((mem_dedupAux ys (y :: seen) a).1 ha).2
        have hb2 := ((mem_dedupAux ys (y :: seen) b).1 hb).2
        have hay : ¬ (y = a) := fun h => ha2 (h ▸ List.mem_cons_self y seen)
        have hby : ¬ (y = b) := fun h => hb2 (h ▸ List.mem_cons_self y seen)
        simp only [firstIdx, if_neg hay, if_neg hby]
        omega

/-- C1 counterexample: on the input consisting of `it` wrapped in
apostrophes, the extractor emits the token `it`, which is shorter than 3
characters and is a stopword — the quoted form passes the filter and is
trimmed only afterwards. -/
theorem c1_counterexample :
    extract_keywords [apos, 'i', 't', apos] = [['i', 't']]
    ∧ (['i', 't'] : List Char).length < 3
    ∧ String.mk ['i', 't'] ∈ STOPWORDS := by decide

/-- C1 (amended): every output token of the Keyword Extractor is the
apostrophe-trimmed form of a matched word of length at least 3 that is not a
stopword (so the guarantees of the claim hold of the tokens before
trimming, not necessarily after); the output is duplicate-free and ordered
by first occurrence in the pre-deduplication keyword list. -/
theorem c1_keyword_invariants (t : List Char) :
    (∀ w ∈ extract_keywords t, ∃ v, v ∈ findall3 (t.map pyLower)
        ∧ String.mk v ∉ STOPWORDS ∧ 3 ≤ v.length ∧ w = stripQuotes v)
    ∧ (extract_keywords t).Nodup
    ∧ (∀ w, w ∈ extract_keywords t ↔ w ∈ preKeywords t)
    ∧ (extract_keywords t).Pairwise
        (fun a b => firstIdx (preKeywords t) a < firstIdx (preKeywords t) b) := by
  refine ⟨?_, nodup_dedupAux _ _, ?_, pairwise_firstIdx_dedupAux _ _⟩
  · intro w hw
    have hpre : w ∈ preKeywords t :=
      ((mem_dedupAux (preKeywords t) [] w).1 hw).1
    simp only [preKeywords, List.mem_map, List.mem_filter, Bool.and_eq_true,
      decide_eq_true_eq] at hpre
    obtain ⟨v, ⟨hv1, hv2, hv3⟩, hv4⟩ := hpre
    exact ⟨v, hv1, hv2, hv3, hv4.symm⟩
  · intro w
    rw [extract_keywords, mem_dedupAux]
    simp

/-- Membership in a stable descending insertion. -/
theorem mem_insertDesc {α : Type} (key : α → Nat × Nat) (x : α) (l : List α) (y : α) :
    y ∈ insertDesc key x l ↔ y = x ∨ y ∈ l := by
  induction l with
  | nil => simp [insertDesc]
  | cons z zs ih =>
    simp only [insertDesc]
    split
    · simp only [List.mem_cons, ih]
      tauto
    · simp only [List.mem_cons]

/-- The stable descending sort is a permutation membership-wise. -/
theorem mem_sortDesc {α : Type} (key : α → Nat × Nat) (l : List α) (y : α) :
    y ∈ sortDesc key l ↔ y ∈ l := by
  induction l with
  | nil => simp [sortDesc]
  | cons z zs ih =>
    simp only [sortDesc, mem_insertDesc, ih, List.mem_cons]

/-- Every scored entry comes from a candidate whose tags parsed and overlap
the source tags, with the recorded overlap and a 0/1 stage flag. -/
theorem mem_scoredOf (pt : String → Option (List String)) (srcTags : List String)
    (srcStage : Option String) :
    ∀ (cs : List Row) (e : Scored), e ∈ scoredOf pt srcTags srcStage cs →
      e.row ∈ cs ∧ 0 < e.shared
      ∧ (e.sameStage = 1 ∨ e.sameStage = 0)
      ∧ ∃ raw tl, e.row.tags = some raw ∧ pt raw = some tl
          ∧ e.shared = sharedCount srcTags tl := by
  intro cs
  induction cs with
  | nil => intro e he; simp [scoredOf] at he
  | cons c cs ih =>
    intro e he
    simp only [scoredOf] at he
    split at he
    · obtain ⟨h1, h2, h3, h4⟩ := ih e he
      exact ⟨List.mem_cons_of_mem _ h1, h2, h3, h4⟩
    · next raw heq =>
      split at he
      · obtain ⟨h1, h2, h3, h4⟩ := ih e he
        exact ⟨List.mem_cons_of_mem _ h1, h2, h3, h4⟩
      · next tl hpt =>
        split at he
        · next hsh =>
          rcases List.mem_cons.1 he with rfl | he2
          · refine ⟨List.mem_cons_self _ _, hsh, ?_, raw, tl, heq, hpt, rfl⟩
            by_cases hstage : c.stage = srcStage <;> simp [hstage]
          · obtain ⟨h1, h2, h3, h4⟩ := ih e he2
            exact ⟨List.mem_cons_of_mem _ h1, h2, h3, h4⟩
        · obtain ⟨h1, h2, h3, h4⟩ := ih e he
          exact ⟨List.mem_cons_of_mem _ h1, h2, h3, h4⟩

/-- A candidate row never carries the source identifier. -/
theorem mem_candidatesOf (db : List Row) (mid : String) (r : Row)
    (hmem : r ∈ candidatesOf db mid) : r.id ≠ mid := by
  simp only [candidatesOf, List.mem_filter, Bool.and_eq_true, decide_eq_true_eq] at hmem
  exact hmem.2.1.1

/-- C6: a successful similarity response never contains the source moment
itself, and every returned candidate has a tags column that parses and
shares at least one tag with the source tag set — a candidate whose tags
fail to parse is silently excluded, and the outcome (success vs. error) of
the operation never depends on the candidate rows at all. -/
theorem c6_similar_exclusions (pt : String → Option (List String)) (db : List Row)
    (mid : String) (lim : Int) (res : SimilarRes)
    (h : similar pt db mid lim = .ok res) :
    (∀ r ∈ res.moments, r.id ≠ mid
      ∧ ∃ raw tl, r.tags = some raw ∧ pt raw = some tl
          ∧ 0 < sharedCount res.source_tags tl)
    ∧ ∀ db2, findRow db2 mid = findRow db mid →
        ∃ res2, similar pt db2 mid lim = .ok res2 := by
  constructor
  · intro r hr
    unfold similar at h
    split at h
    · exact Except.noConfusion h
    · split at h
      · exact Except.noConfusion h
      · split at h
        · simp only [Except.ok.injEq] at h
          subst h
          simp at hr
        · split at h
          · exact Except.noConfusion h
          · split at h
            · simp only [Except.ok.injEq] at h
              subst h
              simp at hr
            · simp only [Except.ok.injEq] at h
              subst h
              simp only [List.mem_map] at hr
              obtain ⟨e, he, rfl⟩ := hr
              have he2 := List.take_subset _ _ he
              have he3 := (mem_sortDesc _ _ _).1 he2
              obtain ⟨hmem, hpos, hss, raw, tl, hraw, hptr, hsh⟩ :=
                mem_scoredOf _ _ _ _ e he3
              refine ⟨mem_candidatesOf db mid _ hmem, raw, tl, hraw, hptr, ?_⟩
              rw [← hsh]
              exact hpos
  · intro db2 hdb
    unfold similar at h ⊢
    rw [hdb]
    by_cases hval : ¬ (1 ≤ lim ∧ lim ≤ 20)
    · rw [if_pos hval] at h
      exact Except.noConfusion h
    · rw [if_neg hval] at h ⊢
      cases hsrc : findRow db mid with
      | none =>
        simp only [hsrc] at h
        exact Except.noConfusion h
      | some source =>
        simp only [hsrc] at h ⊢
        by_cases ht : source.tags = none ∨ source.tags = some ""
        · rw [if_pos ht]
          exact ⟨_, rfl⟩
        · rw [if_neg ht] at h ⊢
          cases hpt : pt (source.tags.getD "") with
          | none =>
            simp only [hpt] at h
            exact Except.noConfusion h
          | some srcTags =>
            simp only [hpt]
            by_cases hem : srcTags = []
            · rw [if_pos hem]
              exact ⟨_, rfl⟩
            · rw [if_neg hem]
              exact ⟨_, rfl⟩

/-- Witness for C6 on the concrete store with an unparseable candidate. -/
theorem c6_witness :
    similar ptW dbW "s" 5 = .ok resW
    ∧ (∀ r ∈ resW.moments, r.id ≠ "s"
        ∧ ∃ raw tl, r.tags = some raw ∧ ptW raw = some tl
            ∧ 0 < sharedCount resW.source_tags tl)
    ∧ ∀ db2, findRow db2 "s" = findRow dbW "s" →
        ∃ res2, similar ptW db2 "s" 5 = .ok res2 := by
  have hs : similar ptW dbW "s" 5 = .ok resW := by decide
  have h := c6_similar_exclusions ptW dbW "s" 5 resW hs
  exact ⟨hs, h.1, h.2⟩

/-- Key comparison is transitive. -/
theorem lexLt_trans {a b c : Nat × Nat} (h1 : lexLt a b) (h2 : lexLt b c) :
    lexLt a c := by
  unfold lexLt at h1 h2 ⊢
  omega

/-- Key comparison is trichotomous. -/
theorem lexLt_resolve (a b : Nat × Nat) :
    lexLt a b ∨ lexLt b a ∨ (a.1 = b.1 ∧ a.2 = b.2) := by
  unfold lexLt
  omega

/-- Inserting an element with the smallest scan index into a sorted-stable
list keeps it sorted-stable. -/
theorem insertDesc_stable {α : Type} (key : α → Nat × Nat) (idx : α → Nat) (x : α) :
    ∀ l : List α,
      l.Pairwise (fun p q => lexLt (key q) (key p) ∨ (key p = key q ∧ idx p < idx q)) →
      (∀ y ∈ l, idx x < idx y) →
      (insertDesc key x l).Pairwise
        (fun p q => lexLt (key q) (key p) ∨ (key p = key q ∧ idx p < idx q)) := by
  intro l
  induction l with
  | nil => intro _ _; simp [insertDesc]
  | cons y ys ih =>
    intro hl hx
    obtain ⟨hy, hys⟩ := List.pairwise_cons.1 hl
    simp only [insertDesc]
    split
    · next hlt =>
      refine List.Pairwise.cons ?_ (ih hys (fun z hz => hx z (List.mem_cons_of_mem _ hz)))
      intro z hz
      rcases (mem_insertDesc key x ys z).1 hz with rfl | hz2
      · exact Or.inl hlt
      · exact hy z hz2
    · next hnlt =>
      refine List.Pairwise.cons ?_ hl
      intro z hz
      rcases List.mem_cons.1 hz with rfl | hz2
      · rcases lexLt_resolve (key x) (key z) with hc | hc | hc
        · exact absurd hc hnlt
        · exact Or.inl hc
        · exact Or.inr ⟨Prod.ext hc.1 hc.2, hx z hz⟩
      · rcases hy z hz2 with hzy | ⟨hkeq, _⟩
        · rcases lexLt_resolve (key x) (key y) with hc | hc | hc
          · exact absurd hc hnlt
          · exact Or.inl (lexLt_trans hzy hc)
          · refine Or.inl ?_
            have hxy : key x = key y := Prod.ext hc.1 hc.2
            rw [hxy]
            exact hzy
        · rcases lexLt_resolve (key x) (key y) with hc | hc | hc
          · exact absurd hc hnlt
          · exact Or.inl (by rw [← hkeq]; exact hc)
          · refine Or.inr ⟨?_, hx z hz⟩
            have hxy : key x = key y := Prod.ext hc.1 hc.2
            rw [hxy, hkeq]

/-- The stable descending sort of a list with strictly increasing scan
indices is sorted on keys, with equal-key runs in scan order. -/
theorem sortDesc_stable {α : Type} (key : α → Nat × Nat) (idx : α → Nat) :
    ∀ l : List α, l.Pairwise (fun p q => idx p < idx q) →
      (sortDesc key l).Pairwise
        (fun p q => lexLt (key q) (key p) ∨ (key p = key q ∧ idx p < idx q)) := by
  intro l
  induction l with
  | nil => intro _; simp [sortDesc]
  | cons x xs ih =>
    intro hl
    obtain ⟨hx, hxs⟩ := List.pairwise_cons.1 hl
    simp only [sortDesc]
    exact insertDesc_stable key idx x (sortDesc key xs) (ih hxs)
      (fun y hy => hx y ((mem_sortDesc key xs y).1 hy))

/-- Dropping the attached indices commutes with insertion. -/
theorem map_fst_insertDesc {α : Type} (key : α → Nat × Nat) (x : α × Nat) :
    ∀ l : List (α × Nat),
      (insertDesc (fun p => key p.1) x l).map Prod.fst
        = insertDesc key x.1 (l.map Prod.fst) := by
  intro l
  induction l with
  | nil => simp [insertDesc]
  | cons y ys ih =>
    simp only [insertDesc, List.map_cons]
    by_cases hc : lexLt (key x.1) (key y.1)
    · rw [if_pos hc, if_pos hc, List.map_cons, ih]
    · rw [if_neg hc, if_neg hc]
      simp

/-- Dropping the attached indices commutes with the stable sort. -/
theorem map_fst_sortDesc {α : Type} (key : α → Nat × Nat) :
    ∀ l : List (α × Nat),
      (sortDesc (fun p => key p.1) l).map Prod.fst = sortDesc key (l.map Prod.fst) := by
  intro l
  induction l with
  | nil => simp [sortDesc]
  | cons x xs ih => simp only [sortDesc, List.map_cons, map_fst_insertDesc, ih]

/-- The attached indices project back to the original list. -/
theorem map_fst_withIdx {α : Type} :
    ∀ (l : List α) (n : Nat), (withIdx l n).map Prod.fst = l := by
  intro l
  induction l with
  | nil => intro n; rfl
  | cons x xs ih => intro n; simp [withIdx, ih]

/-- Attached indices start at the given offset. -/
theorem mem_withIdx_snd_le {α : Type} :
    ∀ (l : List α) (n : Nat) (p : α × Nat), p ∈ withIdx l n → n ≤ p.2 := by
  intro l
  induction l with
  | nil => intro n p h; simp [withIdx] at h
  | cons x xs ih =>
    intro n p h
    simp only [withIdx, List.mem_cons] at h
    rcases h with rfl | h
    · exact Nat.le_refl _
    · have := ih (n + 1) p h
      omega

/-- The first components of indexed pairs come from the original list. -/
theorem mem_withIdx_fst {α : Type} :
    ∀ (l : List α) (n : Nat) (p : α × Nat), p ∈ withIdx l n → p.1 ∈ l := by
  intro l
  induction l with
  | nil => intro n p h; simp [withIdx] at h
  | cons x xs ih =>
    intro n p h
    simp only [withIdx, List.mem_cons] at h
    rcases h with rfl | h
    · exact List.mem_cons_self _ _
    · exact List.mem_cons_of_mem _ (ih (n + 1) p h)

/-- Attached indices are strictly increasing. -/
theorem withIdx_snd_lt {α : Type} :
    ∀ (l : List α) (n : Nat), (withIdx l n).Pairwise (fun p q => p.2 < q.2) := by
  intro l
  induction l with
  | nil => intro n; simp [withIdx]
  | cons x xs ih =>
    intro n
    refine List.Pairwise.cons ?_ (ih (n + 1))
    intro q hq
    have := mem_withIdx_snd_le xs (n + 1) q hq
    simp only [withIdx]
    omega

/-- With an empty source tag set no candidate scores. -/
theorem scoredOf_nil_left (pt : String → Option (List String))
    (srcStage : Option String) :
    ∀ cs : List Row, scoredOf pt [] srcStage cs = [] := by
  intro cs
  induction cs with
  | nil => rfl
  | cons c cs ih =>
    simp only [scoredOf]
    split
    · exact ih
    · split
      · exact ih
      · rw [if_neg]
        · exact ih
        · simp [sharedCount]

/-- Taking a prefix after the indexed sort and dropping indices agrees with
the plain sort. -/
theorem sortDesc_withIdx_take_map (scored : List Scored) (n : Nat) :
    ((sortDesc (fun p => scoredKey p.1) (withIdx scored 0)).take n).map
        (fun p => p.1.row)
      = ((sortDesc scoredKey scored).take n).map (fun e => e.row) := by
  have h1 : (sortDesc (fun p => scoredKey p.1) (withIdx scored 0)).map Prod.fst
      = sortDesc scoredKey scored := by
    rw [map_fst_sortDesc, map_fst_withIdx]
  calc ((sortDesc (fun p => scoredKey p.1) (withIdx scored 0)).take n).map
        (fun p => p.1.row)
      = (((sortDesc (fun p => scoredKey p.1) (withIdx scored 0)).take n).map
          Prod.fst).map (fun e => e.row) := by
        rw [List.map_map]; rfl
    _ = (((sortDesc (fun p => scoredKey p.1) (withIdx scored 0)).map
          Prod.fst).take n).map (fun e => e.row) := by
        rw [List.map_take]
    _ = ((sortDesc scoredKey scored).take n).map (fun e => e.row) := by rw [h1]

/-- C2: the returned similarity list is the truncation-after-sorting of the
scored candidates, and in the sorted order any entry A before B has either
strictly larger overlap, or equal overlap with A matching the source stage
while B does not, or both keys equal with A scanned before B. -/
theorem c2_similar_ranking (pt : String → Option (List String)) (db : List Row)
    (mid : String) (lim : Int) (res : SimilarRes) (source : Row)
    (h : similar pt db mid lim = .ok res) (hsrc : findRow db mid = some source) :
    res.moments = ((sortDesc (fun p => scoredKey p.1)
        (withIdx (scoredOf pt res.source_tags source.stage (candidatesOf db mid)) 0)).take
          lim.toNat).map (fun p => p.1.row)
    ∧ (sortDesc (fun p => scoredKey p.1)
        (withIdx (scoredOf pt res.source_tags source.stage (candidatesOf db mid)) 0)).Pairwise
        (fun A B => B.1.shared < A.1.shared
          ∨ (A.1.shared = B.1.shared ∧ ((A.1.sameStage = 1 ∧ B.1.sameStage = 0)
              ∨ (A.1.sameStage = B.1.sameStage ∧ A.2 < B.2)))) := by
  have hpair : ∀ srcTags : List String,
      (sortDesc (fun p : Scored × Nat => scoredKey p.1)
        (withIdx (scoredOf pt srcTags source.stage (candidatesOf db mid)) 0)).Pairwise
        (fun A B => B.1.shared < A.1.shared
          ∨ (A.1.shared = B.1.shared ∧ ((A.1.sameStage = 1 ∧ B.1.sameStage = 0)
              ∨ (A.1.sameStage = B.1.sameStage ∧ A.2 < B.2)))) := by
    intro srcTags
    have hpw := sortDesc_stable (fun p : Scored × Nat => scoredKey p.1) Prod.snd
      (withIdx (scoredOf pt srcTags source.stage (candidatesOf db mid)) 0)
      (withIdx_snd_lt _ 0)
    refine List.Pairwise.imp_of_mem ?_ hpw
    intro A B hA hB hR
    have hAm := mem_withIdx_fst _ _ _ ((mem_sortDesc _ _ _).1 hA)
    have hBm := mem_withIdx_fst _ _ _ ((mem_sortDesc _ _ _).1 hB)
    have hssA := (mem_scoredOf pt srcTags source.stage _ A.1 hAm).2.2.1
    have hssB := (mem_scoredOf pt srcTags source.stage _ B.1 hBm).2.2.1
    simp only [lexLt, scoredKey, Prod.mk.injEq] at hR
    omega
  unfold similar at h
  by_cases hval : ¬ (1 ≤ lim ∧ lim ≤ 20)
  · rw [if_pos hval] at h
    exact Except.noConfusion h
  · rw [if_neg hval] at h
    simp only [hsrc] at h
    by_cases ht : source.tags = none ∨ source.tags = some ""
    · rw [if_pos ht] at h
      simp only [Except.ok.injEq] at h
      subst h
      refine ⟨?_, hpair []⟩
      rw [scoredOf_nil_left]
      simp [withIdx, sortDesc]
    · rw [if_neg ht] at h
      cases hpt : pt (source.tags.getD "") with
      | none =>
        simp only [hpt] at h
        exact Except.noConfusion h
      | some srcTags =>
        simp only [hpt] at h
        by_cases hem : srcTags = []
        · rw [if_pos hem] at h
          simp only [Except.ok.injEq] at h
          subst h
          refine ⟨?_, hpair []⟩
          rw [scoredOf_nil_left]
          simp [withIdx, sortDesc]
        · rw [if_neg hem] at h
          simp only [Except.ok.injEq] at h
          subst h
          exact ⟨(sortDesc_withIdx_take_map _ _).symm, hpair srcTags⟩

/-- Witness for C2 on the concrete store. -/
theorem c2_witness :
    similar ptW dbW "s" 5 = .ok resW
    ∧ findRow dbW "s" = some rowS
    ∧ resW.moments = ((sortDesc (fun p => scoredKey p.1)
        (withIdx (scoredOf ptW resW.source_tags rowS.stage (candidatesOf dbW "s")) 0)).take
          (5 : Int).toNat).map (fun p => p.1.row) := by
  have h1 : similar ptW dbW "s" 5 = .ok resW := by decide
  have h2 : findRow dbW "s" = some rowS := by decide
  exact ⟨h1, h2, (c2_similar_ranking ptW dbW "s" 5 resW rowS h1 h2).1⟩

/-- No lowercase image is itself an uppercase-map key. -/
theorem upperMap_snd_fixed :
    ∀ p ∈ upperMap, upperMap.find? (fun q => decide (q.1 = p.2)) = none := by decide

/-- ASCII lowering is idempotent. -/
theorem pyLower_idem (c : Char) : pyLower (pyLower c) = pyLower c := by
  cases hf : upperMap.find? (fun p => decide (p.1 = c)) with
  | none =>
    have h1 : pyLower c = c := by unfold pyLower; rw [hf]
    rw [h1]
    exact h1
  | some p =>
    have h1 : pyLower c = p.2 := by unfold pyLower; rw [hf]
    have hp : p ∈ upperMap := List.mem_of_find?_eq_some hf
    have h2 : upperMap.find? (fun q => decide (q.1 = p.2)) = none :=
      upperMap_snd_fixed p hp
    rw [h1]
    conv_lhs => unfold pyLower
    rw [h2]

/-- Every character of every emitted run satisfies the class predicate. -/
theorem runsAux_all (p : Char → Bool) :
    ∀ (l cur : List Char), (∀ c ∈ cur, p c = true) →
      ∀ w ∈ runsAux p cur l, ∀ c ∈ w, p c = true := by
  intro l
  induction l with
  | nil =>
    intro cur hcur w hw
    simp only [runsAux] at hw
    split at hw
    · simp at hw
    · simp only [List.mem_singleton] at hw
      subst hw
      intro c hc
      exact hcur c (List.mem_reverse.1 hc)
  | cons a as ih =>
    intro cur hcur w hw
    simp only [runsAux] at hw
    split at hw
    · next hpa =>
      refine ih (a :: cur) ?_ w hw
      intro c hc
      rcases List.mem_cons.1 hc with rfl | hc
      · exact hpa
      · exact hcur c hc
    · split at hw
      · exact ih [] (by simp) w hw
      · rcases List.mem_cons.1 hw with rfl | hw2
        · intro c hc
          exact hcur c (List.mem_reverse.1 hc)
        · exact ih [] (by simp) w hw2

/-- Every character of every emitted run comes from the accumulator or the
input. -/
theorem runsAux_subset (p : Char → Bool) :
    ∀ (l cur : List Char) (w : List Char), w ∈ runsAux p cur l →
      ∀ c ∈ w, c ∈ cur ∨ c ∈ l := by
  intro l
  induction l with
  | nil =>
    intro cur w hw c hc
    simp only [runsAux] at hw
    split at hw
    · simp at hw
    · simp only [List.mem_singleton] at hw
      subst hw
      exact Or.inl (List.mem_reverse.1 hc)
  | cons a as ih =>
    intro cur w hw c hc
    simp only [runsAux] at hw
    split at hw
    · rcases ih (a :: cur) w hw c hc with h | h
      · rcases List.mem_cons.1 h with rfl | h
        · exact Or.inr (List.mem_cons_self _ _)
        · exact Or.inl h
      · exact Or.inr (List.mem_cons_of_mem _ h)
    · split at hw
      · rcases ih [] w hw c hc with h | h
        · simp at h
        · exact Or.inr (List.mem_cons_of_mem _ h)
      · rcases List.mem_cons.1 hw with rfl | hw2
        · exact Or.inl (List.mem_reverse.1 hc)
        · rcases ih [] w hw2 c hc with h | h
          · simp at h
          · exact Or.inr (List.mem_cons_of_mem _ h)

/-- A run scan over an all-class input yields that input as a single run. -/
theorem runsAux_all_p (p : Char → Bool) :
    ∀ (t cur : List Char), (∀ c ∈ t, p c = true) →
      runsAux p cur t = if cur.reverse ++ t = [] then [] else [cur.reverse ++ t] := by
  intro t
  induction t with
  | nil =>
    intro cur h
    simp only [runsAux, List.append_nil]
    by_cases hc : cur = []
    · simp [hc]
    · rw [if_neg hc, if_neg (by simpa using hc)]
  | cons a as ih =>
    intro cur h
    have hpa : p a = true := h a (List.mem_cons_self _ _)
    simp only [runsAux, hpa, if_true]
    rw [ih (a :: cur) (fun c hc => h c (List.mem_cons_of_mem _ hc))]
    have h1 : (a :: cur).reverse ++ as = cur.reverse ++ a :: as := by
      simp [List.append_assoc]
    rw [h1]

/-- A run scan over an all-class block followed by a separator emits the
block (when non-empty) and continues fresh. -/
theorem runsAux_append_sep (p : Char → Bool) (s : Char) (hs : p s = false) :
    ∀ (t cur rest : List Char), (∀ c ∈ t, p c = true) →
      runsAux p cur (t ++ s :: rest)
        = if cur.reverse ++ t = [] then runsAux p [] rest
          else (cur.reverse ++ t) :: runsAux p [] rest := by
  intro t
  induction t with
  | nil =>
    intro cur rest h
    simp only [List.nil_append, runsAux, hs, Bool.false_eq_true, if_false,
      List.append_nil]
    by_cases hc : cur = []
    · simp [hc]
    · rw [if_neg hc, if_neg (by simpa using hc)]
  | cons a as ih =>
    intro cur rest h
    have hpa : p a = true := h a (List.mem_cons_self _ _)
    simp only [List.cons_append, runsAux, hpa, if_true, List.append_eq]
    rw [ih (a :: cur) rest (fun c hc => h c (List.mem_cons_of_mem _ hc))]
    have h1 : (a :: cur).reverse ++ as = cur.reverse ++ a :: as := by
      simp [List.append_assoc]
    rw [h1]

/-- The space separator is not a word character. -/
theorem wordChar_space : wordChar ' ' = false := by decide

/-- Splitting the space-join of all-word-character tokens into runs returns
exactly the non-empty tokens. -/
theorem listRuns_joinSpace :
    ∀ K : List (List Char), (∀ w ∈ K, ∀ c ∈ w, wordChar c = true) →
      listRuns wordChar (joinSpace K) = K.filter (fun w => decide (w ≠ [])) := by
  intro K
  induction K with
  | nil => intro _; rfl
  | cons t ts ih =>
    intro hall
    cases ts with
    | nil =>
      show runsAux wordChar [] t = List.filter _ [t]
      rw [runsAux_all_p wordChar t [] (hall t (List.mem_cons_self _ _))]
      by_cases h : t = []
      · simp [h]
      · simp [List.filter_cons, h]
    | cons t2 ts2 =>
      show runsAux wordChar [] (t ++ ' ' :: joinSpace (t2 :: ts2)) = _
      rw [runsAux_append_sep wordChar ' ' wordChar_space t []
        (joinSpace (t2 :: ts2)) (hall t (List.mem_cons_self _ _))]
      have hrec : runsAux wordChar [] (joinSpace (t2 :: ts2))
          = (t2 :: ts2).filter (fun w => decide (w ≠ [])) :=
        ih (fun w hw => hall w (List.mem_cons_of_mem _ hw))
      by_cases h : t = []
      · simp [h, hrec, List.filter_cons]
      · simp [h, hrec, List.filter_cons]

/-- The head of a `dropWhile` result fails the predicate. -/
theorem dropWhile_head_false (p : Char → Bool) :
    ∀ (l : List Char) (c : Char) (cs : List Char),
      l.dropWhile p = c :: cs → p c = false := by
  intro l
  induction l with
  | nil => intro c cs h; simp at h
  | cons a as ih =>
    intro c cs h
    rw [List.dropWhile_cons] at h
    split at h
    · exact ih c cs h
    · next hpa =>
      cases h
      simpa using hpa

/-- `dropWhile` is the identity on a list whose head fails the predicate. -/
theorem dropWhile_of_head_false (p : Char → Bool) (l : List Char)
    (h : ∀ c cs, l = c :: cs → p c = false) : l.dropWhile p = l := by
  cases l with
  | nil => rfl
  | cons a as =>
    rw [List.dropWhile_cons, if_neg]
    simp [h a as rfl]

/-- `dropWhile` is idempotent. -/
theorem dropWhile_dropWhile (p : Char → Bool) (l : List Char) :
    (l.dropWhile p).dropWhile p = l.dropWhile p :=
  dropWhile_of_head_false p _ (fun c cs h => dropWhile_head_false p l c cs h)

/-- Apostrophe trimming is idempotent. -/
theorem stripQuotes_idem (w : List Char) :
    stripQuotes (stripQuotes w) = stripQuotes w := by
  have hA : (stripQuotes w).dropWhile (fun c => decide (c = apos)) = stripQuotes w := by
    apply dropWhile_of_head_false
    intro c cs hvc
    obtain ⟨t, ht⟩ := List.dropWhile_suffix (l :=
      (w.dropWhile (fun c => decide (c = apos))).reverse) (fun c => decide (c = apos))
    have hu : w.dropWhile (fun c => decide (c = apos)) = (stripQuotes w) ++ t.reverse := by
      have h3 := congrArg List.reverse ht
      simp only [List.reverse_append, List.reverse_reverse] at h3
      rw [← h3]
      rfl
    rw [hvc] at hu
    exact dropWhile_head_false _ w c (cs ++ t.reverse) (by rw [hu]; rfl)
  show ((((stripQuotes w).dropWhile (fun c => decide (c = apos))).reverse).dropWhile
      (fun c => decide (c = apos))).reverse = stripQuotes w
  rw [hA]
  have h4 : (stripQuotes w).reverse
      = (w.dropWhile (fun c => decide (c = apos))).reverse.dropWhile
          (fun c => decide (c = apos)) := by
    simp only [stripQuotes, List.reverse_reverse]
  rw [h4, dropWhile_dropWhile]
  simp only [stripQuotes]

/-- Trimmed characters come from the original word. -/
theorem stripQuotes_subset (w : List Char) : ∀ c ∈ stripQuotes w, c ∈ w := by
  intro c hc
  simp only [stripQuotes, List.mem_reverse] at hc
  have h1 := (List.dropWhile_suffix (fun c => decide (c = apos))).subset hc
  rw [List.mem_reverse] at h1
  exact (List.dropWhile_suffix (fun c => decide (c = apos))).subset h1

/-- An inner filter is absorbed when the outer predicate implies it. -/
theorem filter_filter_of_imp {α : Type} (p q : α → Bool) :
    ∀ l : List α, (∀ x, q x = true → p x = true) →
      (l.filter p).filter q = l.filter q := by
  intro l h
  induction l with
  | nil => rfl
  | cons x xs ih =>
    by_cases hq : q x = true
    · have hp := h x hq
      simp [List.filter_cons, hp, hq, ih]
    · by_cases hp : p x = true
      · simp [List.filter_cons, hp, hq, ih]
      · simp [List.filter_cons, hp, hq, ih]

/-- The dedup loop is the identity on duplicate-free input disjoint from the
seen set. -/
theorem dedupAux_eq_self {α : Type} [DecidableEq α] :
    ∀ (l seen : List α), l.Nodup → (∀ x ∈ l, x ∉ seen) → dedupAux seen l = l := by
  intro l
  induction l with
  | nil => intro seen _ _; rfl
  | cons x xs ih =>
    intro seen hnd hdis
    have hx : x ∉ seen := hdis x (List.mem_cons_self _ _)
    simp only [dedupAux, if_neg hx]
    congr 1
    refine ih (x :: seen) (List.nodup_cons.1 hnd).2 ?_
    intro y hy
    simp only [List.mem_cons, not_or]
    exact ⟨fun h => (List.nodup_cons.1 hnd).1 (h ▸ hy),
      hdis y (List.mem_cons_of_mem _ hy)⟩

/-- Space-join characters are spaces or token characters. -/
theorem mem_joinSpace :
    ∀ (K : List (List Char)) (c : Char), c ∈ joinSpace K →
      c = ' ' ∨ ∃ w ∈ K, c ∈ w := by
  intro K
  induction K with
  | nil => intro c hc; simp [joinSpace] at hc
  | cons t ts ih =>
    cases ts with
    | nil =>
      intro c hc
      exact Or.inr ⟨t, List.mem_cons_self _ _, hc⟩
    | cons t2 ts2 =>
      intro c hc
      rw [show joinSpace (t :: t2 :: ts2) = t ++ ' ' :: joinSpace (t2 :: ts2) from rfl] at hc
      rcases List.mem_append.1 hc with hc | hc
      · exact Or.inr ⟨t, List.mem_cons_self _ _, hc⟩
      · rcases List.mem_cons.1 hc with rfl | hc
        · exact Or.inl rfl
        · rcases ih c hc with h | ⟨w, hw, hcw⟩
          · exact Or.inl h
          · exact Or.inr ⟨w, List.mem_cons_of_mem _ hw, hcw⟩

/-- Every extractor output token consists of lowering-fixed word characters
and is fixed by apostrophe trimming. -/
theorem extract_tokens_facts (t : List Char) :
    ∀ w ∈ extract_keywords t,
      (∀ c ∈ w, wordChar c = true ∧ pyLower c = c) ∧ stripQuotes w = w := by
  intro w hw
  have hpre : w ∈ preKeywords t := ((mem_dedupAux (preKeywords t) [] w).1 hw).1
  simp only [preKeywords, findall3, List.mem_map, List.mem_filter] at hpre
  obtain ⟨v, ⟨⟨hvr, hvlen⟩, hvpred⟩, hv4⟩ := hpre
  subst hv4
  constructor
  · intro c hc
    have hcv : c ∈ v := stripQuotes_subset v c hc
    constructor
    · exact runsAux_all wordChar (t.map pyLower) [] (by simp) v hvr c hcv
    · rcases runsAux_subset wordChar (t.map pyLower) [] v hvr c hcv with h | h
      · simp at h
      · obtain ⟨c0, _, rfl⟩ := List.mem_map.1 h
        exact pyLower_idem c0
  · exact stripQuotes_idem v

/-- C8 counterexample: on the input consisting of `it` wrapped in
apostrophes, re-running the extractor on its space-joined output loses the
token `it`, so the output term sets differ. -/
theorem c8_counterexample :
    extract_keywords (joinSpace (extract_keywords [apos, 'i', 't', apos])) = []
    ∧ extract_keywords [apos, 'i', 't', apos] = [['i', 't']] := by decide

/-- C8 (amended): re-running the Keyword Extractor on its space-joined
output keeps exactly the output tokens of length at least 3 that are not
stopwords, in order; in particular the re-run is idempotent exactly on
inputs all of whose output tokens already satisfy those two conditions. -/
theorem c8_extractor_rerun (t : List Char) :
    extract_keywords (joinSpace (extract_keywords t))
      = (extract_keywords t).filter
          (fun w => decide (¬ String.mk w ∈ STOPWORDS) && decide (3 ≤ w.length))
    ∧ ((∀ w ∈ extract_keywords t, String.mk w ∉ STOPWORDS ∧ 3 ≤ w.length) →
        extract_keywords (joinSpace (extract_keywords t)) = extract_keywords t) := by
  have hfacts := extract_tokens_facts t
  have hnd : (extract_keywords t).Nodup := nodup_dedupAux _ _
  have hlow : (joinSpace (extract_keywords t)).map pyLower
      = joinSpace (extract_keywords t) := by
    have hfix : ∀ c ∈ joinSpace (extract_keywords t), pyLower c = c := by
      intro c hc
      rcases mem_joinSpace (extract_keywords t) c hc with rfl | ⟨w, hw, hcw⟩
      · decide
      · exact ((hfacts w hw).1 c hcw).2
    calc (joinSpace (extract_keywords t)).map pyLower
        = (joinSpace (extract_keywords t)).map id := List.map_congr_left hfix
      _ = joinSpace (extract_keywords t) := List.map_id _
  have hruns := listRuns_joinSpace (extract_keywords t)
    (fun w hw c hc => ((hfacts w hw).1 c hc).1)
  have hpre : preKeywords (joinSpace (extract_keywords t))
      = (extract_keywords t).filter
          (fun w => decide (¬ String.mk w ∈ STOPWORDS) && decide (3 ≤ w.length)) := by
    simp only [preKeywords, findall3]
    rw [hlow, hruns]
    rw [filter_filter_of_imp _ _ _ (by
      intro w hw
      simp only [Bool.and_eq_true] at hw
      exact hw.2)]
    rw [filter_filter_of_imp _ _ _ (by
      intro w hw
      simp only [Bool.and_eq_true, decide_eq_true_eq] at hw
      simp only [decide_eq_true_eq]
      intro hemp
      subst hemp
      simp at hw)]
    have hid : ∀ w ∈ (extract_keywords t).filter
        (fun w => decide (¬ String.mk w ∈ STOPWORDS) && decide (3 ≤ w.length)),
        stripQuotes w = w :=
      fun w hw => (hfacts w (List.mem_of_mem_filter hw)).2
    calc ((extract_keywords t).filter
          (fun w => decide (¬ String.mk w ∈ STOPWORDS) && decide (3 ≤ w.length))).map
            stripQuotes
        = ((extract_keywords t).filter
            (fun w => decide (¬ String.mk w ∈ STOPWORDS) && decide (3 ≤ w.length))).map
              id := List.map_congr_left hid
      _ = _ := List.map_id _
  have hmain : extract_keywords (joinSpace (extract_keywords t))
      = (extract_keywords t).filter
          (fun w => decide (¬ String.mk w ∈ STOPWORDS) && decide (3 ≤ w.length)) := by
    show dedupAux [] (preKeywords (joinSpace (extract_keywords t))) = _
    rw [hpre]
    exact dedupAux_eq_self _ [] (List.Nodup.filter _ hnd) (by simp)
  refine ⟨hmain, fun hall => ?_⟩
  rw [hmain]
  apply List.filter_eq_self.2
  intro w hw
  have hws := hall w hw
  simp [hws.1, hws.2]
